import Mathlib

/-!
Shallow embedding of the search core of `gh-find` (a find(1)-like utility for
GitHub repositories). The definitions below are translated from the Go source:
the data model from `internal/github/types.go`, the filter pipeline,
orchestration and repo-spec parsing from `internal/finder/finder.go` (the
staged-filter revision exercised by `internal/finder/finder_test.go`), the
extension-flag normalization from `cmd/root.go`, and the commit-date enricher
from `internal/github/graphql.go`.

Modelling conventions:
* Go `int64` sizes become `Int` (the claims only compare sizes; no overflow
  is involved).
* `strings.ToLower` is modelled by ASCII lowering (`String.toLower`); the
  spec declares ASCII-sufficient case folding acceptable and no claim
  depends on non-ASCII folding.
* The third-party glob matcher `doublestar.Match` is an external library,
  kept abstract as a parameter of type `MatchFn` (success/failure plus a
  boolean, exactly its Go signature `(bool, error)`).
* Concurrency in `Find` is determinized: each repository task is an
  independent pure computation, so the error tally and the set of emitted
  warnings are deterministic; warnings are listed in scheduling order.
-/

namespace GhFind

/-- A file or directory entry of a Git tree (`internal/github/types.go`,
`TreeEntry`): slash-separated path, Git mode string, size in bytes. -/
structure TreeEntry where
  path : String
  mode : String
  size : Int
deriving DecidableEq, Repr

/-- The GitHub tree API response (`internal/github/types.go`,
`TreeResponse`): the entry list plus the upstream truncation flag. -/
structure TreeResponse where
  tree : List TreeEntry
  truncated : Bool
deriving DecidableEq, Repr

/-- A resolved repository (`internal/github/types.go`, `Repository`);
only the fields the orchestration reads are modelled. -/
structure Repository where
  owner : String
  name : String
  fullName : String
  defaultBranch : String
deriving DecidableEq, Repr

/-- File type classification (`internal/github/types.go`, `FileType`). -/
inductive FileType where
  | file
  | directory
  | symlink
  | executable
  | submodule
deriving DecidableEq, Repr

/-- `ParseFileType` from `internal/github/types.go`: classify a Git mode
string, defaulting to a regular file for unrecognized modes. -/
def ParseFileType (mode : String) : FileType :=
  if mode = "040000" then .directory
  else if mode = "120000" then .symlink
  else if mode = "160000" then .submodule
  else if mode = "100755" then .executable
  else if mode = "100644" then .file
  else if mode = "100664" then .file
  else .file

/-- The search options consumed by the filter pipeline
(`internal/finder/options.go`, `Options`; fields not read by the embedded
code are omitted). -/
structure Options where
  pattern : String
  fileTypes : List FileType
  ignoreCase : Bool
  fullPath : Bool
  extensions : List String
  excludes : List String
  minSize : Int
  maxSize : Int

/-- The glob matcher (third-party `doublestar.Match`), kept abstract:
pattern, path, and either a boolean or a pattern-syntax error. -/
def MatchFn : Type := String → String → Except String Bool

/-- Helper for `filepathExt`: walk the reversed character list of a path,
returning the extension once the rightmost dot of the final path segment is
found, and the empty string when a separator or the start is reached. -/
def extOfRev (acc : List Char) : List Char → String
  | [] => ""
  | c :: rest =>
    if c = '/' then ""
    else if c = '.' then String.mk ('.' :: acc)
    else extOfRev (c :: acc) rest

/-- Go `filepath.Ext`: the suffix of the final slash-separated path element
starting at its last dot, or the empty string when there is no dot. -/
def filepathExt (p : String) : String :=
  extOfRev [] p.data.reverse

/-- Go `path.Base`: final element of a slash-separated path, after trailing
slashes are removed; `"."` for the empty path, `"/"` for all-slash paths. -/
def pathBase (p : String) : String :=
  if p = "" then "."
  else
    let rev := p.data.reverse.dropWhile (fun c => c = '/')
    if rev = [] then "/"
    else String.mk (rev.takeWhile (fun c => c ≠ '/')).reverse

/-- `matchesFileType` from `internal/finder/finder.go`: OR-match the derived
file type against the requested list. -/
def matchesFileType (entry : TreeEntry) (fileTypes : List FileType) : Bool :=
  fileTypes.contains (ParseFileType entry.mode)

/-- `filterByType` from `internal/finder/finder.go`. -/
def filterByType (entries : List TreeEntry) (types : List FileType) : List TreeEntry :=
  if types.length = 0 then entries
  else entries.filter (fun entry => types.contains (ParseFileType entry.mode))

/-- `filterByExtension` from `internal/finder/finder.go`: keep entries whose
path has a non-empty final extension contained in the requested list
(everything lowercased first when `ignoreCase`). -/
def filterByExtension (entries : List TreeEntry) (extensions : List String)
    (ignoreCase : Bool) : List TreeEntry :=
  if extensions.length = 0 then entries
  else
    let extensions := if ignoreCase then extensions.map String.toLower else extensions
    entries.filter (fun entry =>
      let matchPath := if ignoreCase then String.toLower entry.path else entry.path
      let ext := filepathExt matchPath
      ext ≠ "" && extensions.contains ext)

/-- `filterBySize` from `internal/finder/finder.go`: identity when both
bounds are zero, otherwise drop entries below `minSize` (when positive) or
above `maxSize` (when positive). -/
def filterBySize (entries : List TreeEntry) (minSize maxSize : Int) : List TreeEntry :=
  if minSize = 0 ∧ maxSize = 0 then entries
  else
    entries.filter (fun entry =>
      if 0 < minSize ∧ entry.size < minSize then false
      else if 0 < maxSize ∧ maxSize < entry.size then false
      else true)

/-- Loop body of `filterByPattern`: match each entry (basename unless
`fullPath`, lowercased when `ignoreCase`) against the already-normalized
pattern, aborting on the first matcher error. -/
def filterByPatternAux (m : MatchFn) (pattern : String) (fullPath ignoreCase : Bool) :
    List TreeEntry → Except String (List TreeEntry)
  | [] => .ok []
  | entry :: rest =>
    let matchPath := if fullPath then entry.path else pathBase entry.path
    let matchPath := if ignoreCase then String.toLower matchPath else matchPath
    match m pattern matchPath with
    | .error err =>
      .error ("pattern \"" ++ pattern ++ "\" failed to match path \"" ++
        entry.path ++ "\": " ++ err)
    | .ok true =>
      match filterByPatternAux m pattern fullPath ignoreCase rest with
      | .error err => .error err
      | .ok tail => .ok (entry :: tail)
    | .ok false => filterByPatternAux m pattern fullPath ignoreCase rest

/-- `filterByPattern` from `internal/finder/finder.go`. -/
def filterByPattern (m : MatchFn) (entries : List TreeEntry) (pattern : String)
    (fullPath ignoreCase : Bool) : Except String (List TreeEntry) :=
  let pattern := if ignoreCase then String.toLower pattern else pattern
  filterByPatternAux m pattern fullPath ignoreCase entries

/-- Inner loop of `filterByExcludes`: does any exclude pattern match the
entry path (OR semantics), aborting on the first matcher error? -/
def isExcludedBy (m : MatchFn) (entryPath matchPath : String) :
    List String → Except String Bool
  | [] => .ok false
  | pat :: rest =>
    match m pat matchPath with
    | .error err =>
      .error ("exclude pattern \"" ++ pat ++ "\" failed to match path \"" ++
        entryPath ++ "\": " ++ err)
    | .ok true => .ok true
    | .ok false => isExcludedBy m entryPath matchPath rest

/-- Outer loop of `filterByExcludes`: keep the entries no exclude pattern
matches. -/
def filterByExcludesAux (m : MatchFn) (excludes : List String)
    (fullPath ignoreCase : Bool) : List TreeEntry → Except String (List TreeEntry)
  | [] => .ok []
  | entry :: rest =>
    let matchPath := if fullPath then entry.path else pathBase entry.path
    let matchPath := if ignoreCase then String.toLower matchPath else matchPath
    match isExcludedBy m entry.path matchPath excludes with
    | .error err => .error err
    | .ok true => filterByExcludesAux m excludes fullPath ignoreCase rest
    | .ok false =>
      match filterByExcludesAux m excludes fullPath ignoreCase rest with
      | .error err => .error err
      | .ok tail => .ok (entry :: tail)

/-- `filterByExcludes` from `internal/finder/finder.go`: identity on an
empty exclude list, otherwise drop every entry matched by some exclude
pattern (patterns lowercased first when `ignoreCase`). -/
def filterByExcludes (m : MatchFn) (entries : List TreeEntry) (excludes : List String)
    (fullPath ignoreCase : Bool) : Except String (List TreeEntry) :=
  if excludes.length = 0 then .ok entries
  else
    let excludes := if ignoreCase then excludes.map String.toLower else excludes
    filterByExcludesAux m excludes fullPath ignoreCase entries

/-- The filter pipeline of `searchRepo` (`internal/finder/finder.go`):
type, extension, size, pattern, excludes, in that order, yielding the
matched paths or the first filter error. -/
def pipeline (m : MatchFn) (entries : List TreeEntry) (opts : Options) :
    Except String (List String) :=
  let entries := filterByType entries opts.fileTypes
  let entries := filterByExtension entries opts.extensions opts.ignoreCase
  let entries := filterBySize entries opts.minSize opts.maxSize
  match filterByPattern m entries opts.pattern opts.fullPath opts.ignoreCase with
  | .error err => .error err
  | .ok entries =>
    match filterByExcludes m entries opts.excludes opts.fullPath opts.ignoreCase with
    | .error err => .error err
    | .ok entries => .ok (entries.map TreeEntry.path)

/-- The warning `searchRepo` emits for a truncated tree response. -/
def truncWarning (repo : Repository) : String :=
  repo.fullName ++ ": exceeds GitHub\x27s API limit (100k files or 7MB) - results are incomplete"

/-- `searchRepo` from `internal/finder/finder.go`, applied to an already
fetched tree response: the emitted warnings paired with either the matched
paths (emitted to the output sink) or the first filter error. -/
def searchRepo (m : MatchFn) (repo : Repository) (tree : TreeResponse)
    (opts : Options) : List String × Except String (List String) :=
  ((if tree.truncated then [truncWarning repo] else []), pipeline m tree.tree opts)

/-- Loop body of the deduplication step of `Find`
(`internal/finder/finder.go`): a `seen` set of full names, keeping each
repository whose full name has not been seen yet. -/
def dedupAux (seen : List String) : List Repository → List Repository
  | [] => []
  | repo :: rest =>
    if repo.fullName ∈ seen then dedupAux seen rest
    else repo :: dedupAux (repo.fullName :: seen) rest

/-- The deduplication step of `Find`: drop later repositories whose full
name was already seen, preserving input order. -/
def dedupByFullName (repos : List Repository) : List Repository :=
  dedupAux [] repos

/-- Is an `Except` outcome a success? -/
def isOkE {α : Type} : Except String α → Bool
  | .ok _ => true
  | .error _ => false

/-- The value of `errorCount` after all tasks of `Find` completed: the
number of scheduled repositories whose search task returned an error
(`search` abstracts the per-repository `searchRepo` outcome). -/
def errorCount (search : Repository → Except String (List String))
    (repos : List Repository) : Nat :=
  (repos.filter (fun repo => !isOkE (search repo))).length

/-- The fatal error message of `Find` when every repository task failed. -/
def allFailMsg (n : Nat) : String :=
  "failed to search all " ++ toString n ++ " repositories"

/-- The tail of `Find` (`internal/finder/finder.go`) after repository
resolution, determinized: deduplicate the resolved repositories, return
success for an empty schedule, run one task per repository, and fail
fatally exactly when every task failed. -/
def findResult (search : Repository → Except String (List String))
    (allRepos : List Repository) : Except String Unit :=
  let repos := dedupByFullName allRepos
  if repos.length = 0 then .ok ()
  else if errorCount search repos = repos.length then .error (allFailMsg repos.length)
  else .ok ()

/-- The per-repository failure warnings `Find` emits (`"fullName: err"`),
listed in scheduling order. -/
def findWarnings (search : Repository → Except String (List String))
    (allRepos : List Repository) : List String :=
  (dedupByFullName allRepos).filterMap (fun repo =>
    match search repo with
    | .error err => some (repo.fullName ++ ": " ++ err)
    | .ok _ => none)

/-- Go `strings.Split(s, sep)` for a single-character separator, on the
character list: split around every occurrence, so the result has one part
more than the number of separators and `split "" = [""]`. -/
def splitChar (sep : Char) (acc : List Char) : List Char → List String
  | [] => [String.mk acc.reverse]
  | c :: rest =>
    if c = sep then String.mk acc.reverse :: splitChar sep [] rest
    else splitChar sep (c :: acc) rest

/-- `parseRepoSpec` from `internal/finder/finder.go`: split on `"/"` and
accept one part (bare owner) or two parts (owner/repo). -/
def parseRepoSpec (spec : String) : Except String (String × String) :=
  match splitChar '/' [] spec.data with
  | [owner] => .ok (owner, "")
  | [owner, repo] => .ok (owner, repo)
  | _ => .error ("invalid repo spec: " ++ spec ++ " (expected username or username/repo)")

/-- `extensionsFlag.Set` normalization from `cmd/root.go`: prepend a dot
when the extension does not already start with one (Go
`strings.HasPrefix(v, ".")`, i.e. the first character is a dot). -/
def normalizeExtension (v : String) : String :=
  if v.data.head? = some '.' then v else "." ++ v

/-- Modelled from the spec, for comparison with `normalizeExtension`: the
claimed normalization of a requested extension "to include exactly one
leading dot", i.e. replace however many leading dots there are with a
single one. -/
def specNormalizeExtension (v : String) : String :=
  "." ++ String.mk (v.data.dropWhile (fun c => c = '.'))

/-- Modelled from the spec, for comparison with `filterByExtension`: keep
an entry iff its path\x27s final extension equals one of the requested
extensions after spec-side normalization (case-sensitive mode). -/
def specFilterByExtension (entries : List TreeEntry) (extensions : List String) :
    List TreeEntry :=
  entries.filter (fun entry =>
    (extensions.map specNormalizeExtension).contains (filepathExt entry.path))

/-- A path paired with its last commit date (`internal/github/types.go`,
`FileCommitInfo`; the timestamp is abstracted to an integer). -/
structure FileCommitInfo where
  path : String
  committedDate : Int
deriving DecidableEq, Repr

/-- The GraphQL transport for one commit-history batch, kept abstract: a
batch of paths yields either an error or, per alias, the node list of
commit dates (`response.Repository.Ref.Target` in
`internal/github/graphql.go`). -/
def QueryFn : Type := List String → Except String (List (String × List Int))

/-- `batchSize` from `internal/github/graphql.go`. -/
def commitBatchSize : Nat := 100

/-- Structural worker for `toBatches`: the fuel only bounds the recursion
depth (each step drops a non-empty prefix) and never changes the result for
`fuel ≥ l.length`. -/
def toBatchesAux : Nat → List String → List (List String)
  | _, [] => []
  | 0, _ :: _ => []
  | fuel + 1, l@(_ :: _) => l.take commitBatchSize :: toBatchesAux fuel (l.drop commitBatchSize)

/-- The batching loop bound of `GetFileCommitDates`: consecutive slices
`paths[i : i+batchSize]`. -/
def toBatches (paths : List String) : List (List String) :=
  toBatchesAux paths.length paths

/-- The per-batch extraction loop of `GetFileCommitDates`: look up alias
`"file" ++ j` for the `j`-th path of the batch; a missing alias or an empty
node list is skipped, otherwise the first node is the last commit date. -/
def collectBatch (resp : List (String × List Int)) (batch : List String) :
    List FileCommitInfo :=
  batch.enum.filterMap (fun jp =>
    match (resp.find? (fun a => a.1 = "file" ++ toString jp.1)).map Prod.snd with
    | some (d :: _) => some ⟨jp.2, d⟩
    | _ => none)

/-- The batch loop of `GetFileCommitDates`: query each batch in order,
abort on the first transport error, concatenate the extracted results. -/
def runBatches (q : QueryFn) : List (List String) → Except String (List FileCommitInfo)
  | [] => .ok []
  | b :: bs =>
    match q b with
    | .error err => .error ("failed to fetch file commit dates: " ++ err)
    | .ok resp =>
      match runBatches q bs with
      | .error err => .error err
      | .ok rest => .ok (collectBatch resp b ++ rest)

/-- `GetFileCommitDates` from `internal/github/graphql.go`. -/
def getFileCommitDates (q : QueryFn) (paths : List String) :
    Except String (List FileCommitInfo) :=
  if paths.length = 0 then .ok []
  else runBatches q (toBatches paths)

theorem filterByPatternAux_sublist (m : MatchFn) (pat : String) (fp ic : Bool) :
    ∀ es out, filterByPatternAux m pat fp ic es = .ok out → out.Sublist es := by
  intro es
  induction es with
  | nil =>
    intro out h
    simp only [filterByPatternAux] at h
    cases h
    exact List.Sublist.refl []
  | cons e rest ih =>
    intro out h
    simp only [filterByPatternAux] at h
    split at h
    · cases h
    · split at h
      · cases h
      · cases h
        rename_i tail htail
        exact (ih tail htail).cons₂ e
    · exact (ih out h).cons e

theorem filterByExcludesAux_sublist (m : MatchFn) (excl : List String) (fp ic : Bool) :
    ∀ es out, filterByExcludesAux m excl fp ic es = .ok out → out.Sublist es := by
  intro es
  induction es with
  | nil =>
    intro out h
    simp only [filterByExcludesAux] at h
    cases h
    exact List.Sublist.refl []
  | cons e rest ih =>
    intro out h
    simp only [filterByExcludesAux] at h
    split at h
    · cases h
    · exact (ih out h).cons e
    · split at h
      · cases h
      · cases h
        rename_i tail htail
        exact (ih tail htail).cons₂ e

/-- C3: every filter stage (type, extension, size, pattern, excludes)
returns an order-preserving subsequence of its input, and maps an empty
input sequence to an empty output. -/
theorem c3_stages_order_preserving (m : MatchFn) (entries : List TreeEntry)
    (types : List FileType) (extensions excludes : List String)
    (minSize maxSize : Int) (pattern : String) (fullPath ignoreCase : Bool) :
    (filterByType entries types).Sublist entries ∧
    (filterByExtension entries extensions ignoreCase).Sublist entries ∧
    (filterBySize entries minSize maxSize).Sublist entries ∧
    (∀ out, filterByPattern m entries pattern fullPath ignoreCase = .ok out →
      out.Sublist entries) ∧
    (∀ out, filterByExcludes m entries excludes fullPath ignoreCase = .ok out →
      out.Sublist entries) ∧
    filterByType [] types = [] ∧
    filterByExtension [] extensions ignoreCase = [] ∧
    filterBySize [] minSize maxSize = [] ∧
    filterByPattern m [] pattern fullPath ignoreCase = .ok [] ∧
    filterByExcludes m [] excludes fullPath ignoreCase = .ok [] := by
  refine ⟨?_, ?_, ?_, ?_, ?_, ?_, ?_, ?_, ?_, ?_⟩
  · unfold filterByType
    split
    · exact List.Sublist.refl entries
    · exact List.filter_sublist entries
  · unfold filterByExtension
    split
    · exact List.Sublist.refl entries
    · exact List.filter_sublist entries
  · unfold filterBySize
    split
    · exact List.Sublist.refl entries
    · exact List.filter_sublist entries
  · intro out h
    exact filterByPatternAux_sublist m _ fullPath ignoreCase entries out h
  · intro out h
    unfold filterByExcludes at h
    split at h
    · cases h
      exact List.Sublist.refl entries
    · exact filterByExcludesAux_sublist m _ fullPath ignoreCase entries out h
  · unfold filterByType
    split <;> rfl
  · unfold filterByExtension
    split <;> rfl
  · unfold filterBySize
    split <;> rfl
  · unfold filterByPattern
    rfl
  · unfold filterByExcludes
    split <;> rfl

theorem c3_stages_order_preserving_witness :
    List.Sublist [TreeEntry.mk "a.go" "100644" 1] [TreeEntry.mk "a.go" "100644" 1] :=
  (c3_stages_order_preserving (fun _ _ => .ok true) [TreeEntry.mk "a.go" "100644" 1]
      [] [] [] 0 0 "p" false false).2.2.2.1 [TreeEntry.mk "a.go" "100644" 1] rfl

/-- C4: an empty file-type list, an empty extension list, an empty exclude
list, and zero min/max size each make the corresponding filter stage the
identity transform. -/
theorem c4_empty_selectors_identity (m : MatchFn) (entries : List TreeEntry)
    (fullPath ignoreCase : Bool) :
    filterByType entries [] = entries ∧
    filterByExtension entries [] ignoreCase = entries ∧
    filterBySize entries 0 0 = entries ∧
    filterByExcludes m entries [] fullPath ignoreCase = .ok entries := by
  refine ⟨?_, ?_, ?_, ?_⟩ <;>
    simp [filterByType, filterByExtension, filterBySize, filterByExcludes]

/-- C7: `ParseFileType` is a pure function of the Git mode string, mapping
"040000" to directory, "120000" to symlink, "160000" to submodule,
"100755" to executable, "100644" and "100664" to regular file, and every
other mode string to regular file (the fallback never errors). -/
theorem c7_mode_classification (mode : String)
    (h1 : mode ≠ "040000") (h2 : mode ≠ "120000") (h3 : mode ≠ "160000")
    (h4 : mode ≠ "100755") (h5 : mode ≠ "100644") (h6 : mode ≠ "100664") :
    ParseFileType "040000" = .directory ∧
    ParseFileType "120000" = .symlink ∧
    ParseFileType "160000" = .submodule ∧
    ParseFileType "100755" = .executable ∧
    ParseFileType "100644" = .file ∧
    ParseFileType "100664" = .file ∧
    ParseFileType mode = .file := by
  refine ⟨rfl, rfl, rfl, rfl, rfl, rfl, ?_⟩
  simp [ParseFileType, h1, h2, h3, h4, h5, h6]

theorem c7_mode_classification_witness : ParseFileType "999999" = .file :=
  (c7_mode_classification "999999" (by decide) (by decide) (by decide)
    (by decide) (by decide) (by decide)).2.2.2.2.2.2

/-- C8: with a positive lower and/or upper bound configured, the size
filter keeps an entry iff its size is at least the minimum (when set) and
at most the maximum (when set), both bounds inclusive. -/
theorem c8_size_filter_inclusive (entries : List TreeEntry) (minSize maxSize : Int)
    (entry : TreeEntry) (h : 0 < minSize ∨ 0 < maxSize) :
    entry ∈ filterBySize entries minSize maxSize ↔
      entry ∈ entries ∧ (0 < minSize → minSize ≤ entry.size) ∧
        (0 < maxSize → entry.size ≤ maxSize) := by
  have hpred : ∀ e : TreeEntry,
      ((if 0 < minSize ∧ e.size < minSize then false
        else if 0 < maxSize ∧ maxSize < e.size then false else true) = true) ↔
      ((0 < minSize → minSize ≤ e.size) ∧ (0 < maxSize → e.size ≤ maxSize)) := by
    intro e
    split_ifs with hc1 hc2 <;> simp <;> omega
  have hne : ¬(minSize = 0 ∧ maxSize = 0) := by
    rcases h with h | h <;> omega
  unfold filterBySize
  rw [if_neg hne]
  simp only [List.mem_filter]
  constructor
  · rintro ⟨hm, hp⟩
    exact ⟨hm, ((hpred entry).mp hp).1, ((hpred entry).mp hp).2⟩
  · rintro ⟨hm, hlo, hhi⟩
    exact ⟨hm, (hpred entry).mpr ⟨hlo, hhi⟩⟩

theorem c8_size_filter_inclusive_witness :
    TreeEntry.mk "a" "100644" 1000 ∈
      filterBySize [TreeEntry.mk "a" "100644" 1000, TreeEntry.mk "b" "100644" 999] 1000 0 ∧
    TreeEntry.mk "b" "100644" 999 ∉
      filterBySize [TreeEntry.mk "a" "100644" 1000, TreeEntry.mk "b" "100644" 999] 1000 0 := by
  constructor
  · exact (c8_size_filter_inclusive _ 1000 0 _ (Or.inl (by decide))).mpr
      ⟨by decide, fun _ => by decide, fun hc => absurd hc (by decide)⟩
  · intro hb
    have hk := (c8_size_filter_inclusive
      [TreeEntry.mk "a" "100644" 1000, TreeEntry.mk "b" "100644" 999] 1000 0
      (TreeEntry.mk "b" "100644" 999) (Or.inl (by decide))).mp hb
    exact absurd (hk.2.1 (by decide)) (by decide)

theorem splitChar_length (sep : Char) (cs : List Char) :
    ∀ acc, (splitChar sep acc cs).length = cs.count sep + 1 := by
  induction cs with
  | nil => intro acc; simp [splitChar]
  | cons c rest ih =>
    intro acc
    simp only [splitChar]
    by_cases hc : c = sep
    · rw [if_pos hc]
      simp [ih, List.count_cons, hc]
    · rw [if_neg hc]
      simp [ih, List.count_cons, hc]

/-- C10: parsing the empty repository spec succeeds with empty owner and
empty repo (it is treated like a bare-owner spec), and a spec is rejected
at parse time exactly when it contains two or more slash separators. -/
theorem c10_parse_empty_spec :
    parseRepoSpec "" = .ok ("", "") ∧
    ∀ spec : String,
      (∃ e, parseRepoSpec spec = .error e) ↔ 2 ≤ spec.data.count '/' := by
  constructor
  · rfl
  · intro spec
    have hlen := splitChar_length '/' spec.data []
    unfold parseRepoSpec
    rcases hspl : splitChar '/' [] spec.data with _ | ⟨a, _ | ⟨b, _ | ⟨c, rest⟩⟩⟩ <;>
      rw [hspl] at hlen <;> simp only [List.length_cons, List.length_nil] at hlen
    · simp at hlen
    · constructor
      · rintro ⟨e, he⟩
        simp at he
      · intro h2
        omega
    · constructor
      · rintro ⟨e, he⟩
        simp at he
      · intro h2
        omega
    · constructor
      · intro _
        omega
      · intro _
        exact ⟨_, rfl⟩

theorem dedupAux_sublist (l : List Repository) :
    ∀ seen : List String, (dedupAux seen l).Sublist l := by
  induction l with
  | nil => intro seen; simp [dedupAux]
  | cons r rest ih =>
    intro seen
    simp only [dedupAux]
    split
    · exact (ih seen).cons r
    · exact (ih (r.fullName :: seen)).cons₂ r

theorem dedupAux_names_fresh (l : List Repository) :
    ∀ seen : List String,
      ((dedupAux seen l).map Repository.fullName).Nodup ∧
      ∀ n ∈ (dedupAux seen l).map Repository.fullName, n ∉ seen := by
  induction l with
  | nil => intro seen; simp [dedupAux]
  | cons r rest ih =>
    intro seen
    simp only [dedupAux]
    split
    · exact ih seen
    · rename_i hnotin
      obtain ⟨hnodup, hfresh⟩ := ih (r.fullName :: seen)
      constructor
      · simp only [List.map_cons, List.nodup_cons]
        refine ⟨fun hmem => (hfresh _ hmem) (List.mem_cons_self _ _), hnodup⟩
      · intro n hn
        simp only [List.map_cons, List.mem_cons] at hn
        rcases hn with hn | hn
        · subst hn; exact hnotin
        · exact fun hseen => (hfresh n hn) (List.mem_cons_of_mem _ hseen)

theorem dedupAux_covers (l : List Repository) :
    ∀ (seen : List String) (r : Repository), r ∈ l →
      r.fullName ∈ seen ∨ r.fullName ∈ (dedupAux seen l).map Repository.fullName := by
  induction l with
  | nil => intro seen r hr; cases hr
  | cons x rest ih =>
    intro seen r hr
    simp only [dedupAux]
    rcases List.mem_cons.mp hr with hx | hr2
    · subst hx
      by_cases hs : r.fullName ∈ seen
      · rw [if_pos hs]; exact Or.inl hs
      · rw [if_neg hs]; right; simp
    · by_cases hs : x.fullName ∈ seen
      · rw [if_pos hs]; exact ih seen r hr2
      · rw [if_neg hs]
        rcases ih (x.fullName :: seen) r hr2 with hseen | hdedup
        · rcases List.mem_cons.mp hseen with heq | hseen2
          · right; simp [heq]
          · exact Or.inl hseen2
        · right
          simp only [List.map_cons, List.mem_cons]
          exact Or.inr hdedup

theorem dedupAux_first_seen (l : List Repository) :
    ∀ (seen : List String) (r : Repository), r ∈ dedupAux seen l →
      r.fullName ∉ seen ∧ l.find? (fun x => x.fullName == r.fullName) = some r := by
  induction l with
  | nil => intro seen r hr; simp [dedupAux] at hr
  | cons x rest ih =>
    intro seen r hr
    simp only [dedupAux] at hr
    by_cases hs : x.fullName ∈ seen
    · rw [if_pos hs] at hr
      obtain ⟨hnot, hfind⟩ := ih seen r hr
      have hne : x.fullName ≠ r.fullName := fun he => hnot (he ▸ hs)
      refine ⟨hnot, ?_⟩
      rw [List.find?_cons_of_neg _ (by simp [hne])]
      exact hfind
    · rw [if_neg hs] at hr
      rcases List.mem_cons.mp hr with heq | htail
      · subst heq
        exact ⟨hs, List.find?_cons_of_pos _ (by simp)⟩
      · obtain ⟨hnot, hfind⟩ := ih (x.fullName :: seen) r htail
        have hne : x.fullName ≠ r.fullName :=
          fun he => hnot (he ▸ List.mem_cons_self _ _)
        refine ⟨fun hseen => hnot (List.mem_cons_of_mem _ hseen), ?_⟩
        rw [List.find?_cons_of_neg _ (by simp [hne])]
        exact hfind

/-- C2: the orchestrator deduplicates resolved repositories by full name
before scheduling: the schedule is an order-preserving subsequence of the
input with pairwise distinct full names, every requested full name is
scheduled, and each scheduled repository is the first-seen occurrence of
its full name. -/
theorem c2_dedup_first_seen (allRepos : List Repository) :
    (dedupByFullName allRepos).Sublist allRepos ∧
    ((dedupByFullName allRepos).map Repository.fullName).Nodup ∧
    (∀ r ∈ allRepos, r.fullName ∈ (dedupByFullName allRepos).map Repository.fullName) ∧
    ∀ r ∈ dedupByFullName allRepos,
      allRepos.find? (fun x => x.fullName == r.fullName) = some r := by
  refine ⟨dedupAux_sublist allRepos [], (dedupAux_names_fresh allRepos []).1, ?_, ?_⟩
  · intro r hr
    rcases dedupAux_covers allRepos [] r hr with hseen | hmem
    · cases hseen
    · exact hmem
  · intro r hr
    exact (dedupAux_first_seen allRepos [] r hr).2

theorem c2_dedup_first_seen_witness :
    ("cli/cli" ∈ (dedupByFullName
      [Repository.mk "cli" "cli" "cli/cli" "trunk",
       Repository.mk "cli" "go-gh" "cli/go-gh" "trunk",
       Repository.mk "cli" "cli" "cli/cli" "main"]).map Repository.fullName) ∧
    List.find? (fun x => x.fullName == "cli/cli")
      [Repository.mk "cli" "cli" "cli/cli" "trunk",
       Repository.mk "cli" "go-gh" "cli/go-gh" "trunk",
       Repository.mk "cli" "cli" "cli/cli" "main"] =
      some (Repository.mk "cli" "cli" "cli/cli" "trunk") :=
  ⟨(c2_dedup_first_seen
      [Repository.mk "cli" "cli" "cli/cli" "trunk",
       Repository.mk "cli" "go-gh" "cli/go-gh" "trunk",
       Repository.mk "cli" "cli" "cli/cli" "main"]).2.2.1
      (Repository.mk "cli" "cli" "cli/cli" "main") (by decide),
   (c2_dedup_first_seen
      [Repository.mk "cli" "cli" "cli/cli" "trunk",
       Repository.mk "cli" "go-gh" "cli/go-gh" "trunk",
       Repository.mk "cli" "cli" "cli/cli" "main"]).2.2.2
      (Repository.mk "cli" "cli" "cli/cli" "trunk") (by decide)⟩

/-- C1: over a non-empty schedule of resolved repositories, `Find` returns
the fatal error "failed to search all N repositories" when every task
failed, and returns overall success with per-repository warnings for the
failures when at least one task succeeded. -/
theorem c1_all_fail_fatal (search : Repository → Except String (List String))
    (allRepos : List Repository) (h : dedupByFullName allRepos ≠ []) :
    ((∀ r ∈ dedupByFullName allRepos, ¬ isOkE (search r)) →
      findResult search allRepos =
        .error (allFailMsg (dedupByFullName allRepos).length)) ∧
    ((∃ r ∈ dedupByFullName allRepos, isOkE (search r)) →
      findResult search allRepos = .ok () ∧
      ∀ r ∈ dedupByFullName allRepos, ∀ e, search r = .error e →
        (r.fullName ++ ": " ++ e) ∈ findWarnings search allRepos) := by
  have hlen : ¬((dedupByFullName allRepos).length = 0) := by
    simpa [List.length_eq_zero] using h
  constructor
  · intro hall
    have hcond : errorCount search (dedupByFullName allRepos) =
        (dedupByFullName allRepos).length := by
      unfold errorCount
      apply List.filter_length_eq_length.mpr
      intro r hr
      have hf := hall r hr
      revert hf
      cases isOkE (search r) <;> simp
    simp only [findResult]
    rw [if_neg hlen, if_pos hcond]
  · rintro ⟨r0, hr0, hok0⟩
    constructor
    · have hcond : ¬(errorCount search (dedupByFullName allRepos) =
          (dedupByFullName allRepos).length) := by
        intro heq
        have hf := List.filter_length_eq_length.mp heq r0 hr0
        revert hok0 hf
        cases isOkE (search r0) <;> simp
      simp only [findResult]
      rw [if_neg hlen, if_neg hcond]
    · intro r hr e he
      unfold findWarnings
      apply List.mem_filterMap.mpr
      exact ⟨r, hr, by simp [he]⟩

theorem c1_all_fail_fatal_witness :
    findResult (fun _ => .error "boom")
      [Repository.mk "cli" "cli" "cli/cli" "trunk",
       Repository.mk "cli" "go-gh" "cli/go-gh" "trunk"] = .error (allFailMsg 2) ∧
    findResult (fun r => if r.fullName = "cli/cli" then .error "boom" else .ok [])
      [Repository.mk "cli" "cli" "cli/cli" "trunk",
       Repository.mk "cli" "go-gh" "cli/go-gh" "trunk"] = .ok () ∧
    ("cli/cli: boom" ∈ findWarnings
      (fun r => if r.fullName = "cli/cli" then .error "boom" else .ok [])
      [Repository.mk "cli" "cli" "cli/cli" "trunk",
       Repository.mk "cli" "go-gh" "cli/go-gh" "trunk"]) := by
  refine ⟨?_, ?_, ?_⟩
  · exact (c1_all_fail_fatal (fun _ => .error "boom")
      [Repository.mk "cli" "cli" "cli/cli" "trunk",
       Repository.mk "cli" "go-gh" "cli/go-gh" "trunk"] (by decide)).1 (by decide)
  · exact ((c1_all_fail_fatal
      (fun r => if r.fullName = "cli/cli" then .error "boom" else .ok [])
      [Repository.mk "cli" "cli" "cli/cli" "trunk",
       Repository.mk "cli" "go-gh" "cli/go-gh" "trunk"] (by decide)).2
      ⟨Repository.mk "cli" "go-gh" "cli/go-gh" "trunk", by decide, by decide⟩).1
  · exact ((c1_all_fail_fatal
      (fun r => if r.fullName = "cli/cli" then .error "boom" else .ok [])
      [Repository.mk "cli" "cli" "cli/cli" "trunk",
       Repository.mk "cli" "go-gh" "cli/go-gh" "trunk"] (by decide)).2
      ⟨Repository.mk "cli" "go-gh" "cli/go-gh" "trunk", by decide, by decide⟩).2
      (Repository.mk "cli" "cli" "cli/cli" "trunk") (by decide) "boom" rfl

/-- C5: for a successfully fetched tree with `truncated = true`, the search
emits the truncation warning and still runs the full filter pipeline on the
partial entry list, with exactly the same outcome (matches or filter error)
as for an untruncated tree: truncation is never treated as an error. -/
theorem c5_truncation_non_fatal (m : MatchFn) (repo : Repository)
    (entries : List TreeEntry) (opts : Options) :
    searchRepo m repo ⟨entries, true⟩ opts =
      ([truncWarning repo], pipeline m entries opts) ∧
    searchRepo m repo ⟨entries, false⟩ opts = ([], pipeline m entries opts) :=
  ⟨rfl, rfl⟩

theorem toBatchesAux_length_le (fuel : Nat) :
    ∀ l : List String, ∀ b ∈ toBatchesAux fuel l, b.length ≤ commitBatchSize := by
  induction fuel with
  | zero =>
    intro l b hb
    cases l <;> simp [toBatchesAux] at hb
  | succ n ih =>
    intro l b hb
    cases l with
    | nil => simp [toBatchesAux] at hb
    | cons x xs =>
      simp only [toBatchesAux] at hb
      rcases List.mem_cons.mp hb with heq | htail
      · subst heq
        exact List.length_take_le _ _
      · exact ih _ b htail

theorem toBatchesAux_flatten (fuel : Nat) :
    ∀ l : List String, l.length ≤ fuel → (toBatchesAux fuel l).flatten = l := by
  induction fuel with
  | zero =>
    intro l hl
    have : l = [] := List.length_eq_zero.mp (Nat.le_zero.mp hl)
    subst this
    rfl
  | succ n ih =>
    intro l hl
    cases l with
    | nil => rfl
    | cons x xs =>
      simp only [toBatchesAux, List.flatten_cons]
      rw [ih]
      · exact List.take_append_drop _ _
      · simp only [List.length_drop, List.length_cons, commitBatchSize]
        simp only [List.length_cons] at hl
        omega

theorem runBatches_error (q : QueryFn) :
    ∀ bs : List (List String), (∃ b ∈ bs, ¬ isOkE (q b)) →
      ¬ isOkE (runBatches q bs) := by
  intro bs
  induction bs with
  | nil => rintro ⟨b, hb, _⟩; cases hb
  | cons b rest ih =>
    rintro ⟨b2, hb2, herr⟩
    simp only [runBatches]
    rcases List.mem_cons.mp hb2 with heq | htail
    · subst heq
      cases hq : q b2 with
      | error e => simp [isOkE]
      | ok resp => rw [hq] at herr; simp [isOkE] at herr
    · cases hq : q b with
      | error e => simp [isOkE]
      | ok resp =>
        have hrec := ih ⟨b2, htail, herr⟩
        cases hr : runBatches q rest with
        | error e2 => simp [isOkE]
        | ok res => rw [hr] at hrec; simp [isOkE] at hrec

theorem runBatches_ok_eq (q : QueryFn) :
    ∀ bs : List (List String), (∀ b ∈ bs, isOkE (q b)) →
      runBatches q bs = .ok (bs.flatMap (fun b =>
        match q b with
        | .ok resp => collectBatch resp b
        | .error _ => [])) := by
  intro bs
  induction bs with
  | nil => intro _; rfl
  | cons b rest ih =>
    intro hok
    simp only [runBatches]
    cases hq : q b with
    | error e =>
      have := hok b (List.mem_cons_self _ _)
      rw [hq] at this
      simp [isOkE] at this
    | ok resp =>
      rw [ih (fun b2 hb2 => hok b2 (List.mem_cons_of_mem _ hb2))]
      simp [List.flatMap_cons, hq]

/-- C6: the commit-date enricher splits the paths into batches of at most
100 per request (the batches concatenate back to the input); when every
batch query succeeds the call succeeds and returns exactly the per-batch
extracted results (paths with a missing alias or an empty commit-node list
are omitted by `collectBatch`, not errors); and when any batch query fails
the whole call returns an error, with no partial result set. -/
theorem c6_commit_date_batching (q : QueryFn) (paths : List String) :
    (∀ b ∈ toBatches paths, b.length ≤ commitBatchSize) ∧
    (toBatches paths).flatten = paths ∧
    ((∃ b ∈ toBatches paths, ¬ isOkE (q b)) → ¬ isOkE (getFileCommitDates q paths)) ∧
    ((∀ b ∈ toBatches paths, isOkE (q b)) →
      getFileCommitDates q paths = .ok ((toBatches paths).flatMap (fun b =>
        match q b with
        | .ok resp => collectBatch resp b
        | .error _ => []))) ∧
    (∀ (resp : List (String × List Int)) (batch : List String),
      ∀ info ∈ collectBatch resp batch, ∃ jp ∈ batch.enum,
        info.path = jp.2 ∧ ∃ d ds,
          (resp.find? (fun a => a.1 = "file" ++ toString jp.1)).map Prod.snd =
            some (d :: ds) ∧ info.committedDate = d) := by
  refine ⟨toBatchesAux_length_le _ _, toBatchesAux_flatten _ _ (Nat.le_refl _), ?_, ?_, ?_⟩
  · intro hex
    unfold getFileCommitDates
    split
    · rename_i hlen
      obtain ⟨b, hb, _⟩ := hex
      rw [List.length_eq_zero.mp hlen] at hb
      cases hb
    · exact runBatches_error q _ hex
  · intro hok
    unfold getFileCommitDates
    split
    · rename_i hlen
      rw [List.length_eq_zero.mp hlen]
      rfl
    · exact runBatches_ok_eq q _ hok
  · intro resp batch info hinfo
    obtain ⟨jp, hjp, hf⟩ := List.mem_filterMap.mp hinfo
    refine ⟨jp, hjp, ?_⟩
    rcases hnodes : (resp.find? (fun a => a.1 = "file" ++ toString jp.1)).map Prod.snd with
      _ | ⟨_ | ⟨d, ds⟩⟩ <;> rw [hnodes] at hf
    · cases hf
    · cases hf
    · cases hf
      exact ⟨rfl, d, ds, hnodes, rfl⟩

theorem c6_commit_date_batching_witness :
    getFileCommitDates
      (fun _ => .ok [("file0", [5]), ("file1", [])]) ["a", "b"] =
      .ok [FileCommitInfo.mk "a" 5] ∧
    ¬ isOkE (getFileCommitDates (fun _ => .error "rate limited") ["a"]) := by
  constructor
  · exact (c6_commit_date_batching
      (fun _ => .ok [("file0", [5]), ("file1", [])]) ["a", "b"]).2.2.2.1 (by decide)
  · exact (c6_commit_date_batching (fun _ => .error "rate limited") ["a"]).2.2.1
      ⟨["a"], by decide, by decide⟩

theorem normalizeExtension_dotted (x : String) :
    normalizeExtension ("." ++ x) = "." ++ x := by
  unfold normalizeExtension
  rw [if_pos]
  rw [String.data_append]
  rfl

theorem normalizeExtension_undotted (x : String) (hx : x.data.head? ≠ some '.') :
    normalizeExtension x = "." ++ x := by
  unfold normalizeExtension
  rw [if_neg hx]

/-- C9 (amended): with a non-empty requested extension list, the extension
filter keeps an entry iff the (case-normalized) path has a non-empty final
extension contained in the requested extensions, each normalized by
prepending a dot only when it does not already start with one; the same
extension requested with or without a leading dot selects the same
entries. -/
theorem c9_extension_filter (entries : List TreeEntry) (extensions : List String)
    (ignoreCase : Bool) (entry : TreeEntry) (hne : extensions ≠ []) :
    (entry ∈ filterByExtension entries (extensions.map normalizeExtension) ignoreCase ↔
      entry ∈ entries ∧
        (let nexts0 := extensions.map normalizeExtension
         let nexts := if ignoreCase then nexts0.map String.toLower else nexts0
         let matchPath := if ignoreCase then String.toLower entry.path else entry.path
         filepathExt matchPath ≠ "" ∧ nexts.contains (filepathExt matchPath))) ∧
    ∀ x : String, x.data.head? ≠ some '.' →
      filterByExtension entries ((x :: extensions).map normalizeExtension) ignoreCase =
        filterByExtension entries ((("." ++ x) :: extensions).map normalizeExtension)
          ignoreCase := by
  constructor
  · have hlen : ¬((extensions.map normalizeExtension).length = 0) := by
      simpa [List.length_eq_zero] using hne
    unfold filterByExtension
    rw [if_neg hlen]
    cases ignoreCase with
    | false =>
      simp only [if_neg, Bool.false_eq_true, reduceIte, List.mem_filter,
        Bool.and_eq_true, decide_eq_true_eq]
    | true =>
      simp only [reduceIte, List.mem_filter, Bool.and_eq_true, decide_eq_true_eq]
  · intro x hx
    have hmap : (x :: extensions).map normalizeExtension =
        (("." ++ x) :: extensions).map normalizeExtension := by
      simp only [List.map_cons]
      rw [normalizeExtension_undotted x hx, normalizeExtension_dotted x]
    rw [hmap]

/-- C9 counterexample: for the requested extension "..go" and the entry
path "a.go", normalizing "to exactly one leading dot" (the claim, modelled
by `specFilterByExtension`) keeps the entry, but the code (prepend a dot
only when absent) keeps nothing. -/
theorem c9_extension_filter_counterexample :
    specFilterByExtension [TreeEntry.mk "a.go" "100644" 1] ["..go"] =
      [TreeEntry.mk "a.go" "100644" 1] ∧
    filterByExtension [TreeEntry.mk "a.go" "100644" 1]
      (["..go"].map normalizeExtension) false = [] := by
  constructor <;> rfl

theorem c9_extension_filter_witness :
    (TreeEntry.mk "main.go" "100644" 1 ∈
      filterByExtension
        [TreeEntry.mk "main.go" "100644" 1, TreeEntry.mk "a.md" "100644" 1]
        (["go"].map normalizeExtension) false) ∧
    filterByExtension [TreeEntry.mk "main.go" "100644" 1]
      (["go", "md"].map normalizeExtension) false =
      filterByExtension [TreeEntry.mk "main.go" "100644" 1]
        ([".go", "md"].map normalizeExtension) false := by
  constructor
  · exact (c9_extension_filter
      [TreeEntry.mk "main.go" "100644" 1, TreeEntry.mk "a.md" "100644" 1]
      ["go"] false (TreeEntry.mk "main.go" "100644" 1)
      (by decide)).1.mpr ⟨by decide, by decide, by decide⟩
  · exact (c9_extension_filter [TreeEntry.mk "main.go" "100644" 1]
      ["md"] false (TreeEntry.mk "main.go" "100644" 1) (by decide)).2 "go" (by decide)

theorem c10_parse_empty_spec_witness :
    parseRepoSpec "" = .ok ("", "") ∧ ∃ e, parseRepoSpec "a/b/c" = .error e :=
  ⟨c10_parse_empty_spec.1, (c10_parse_empty_spec.2 "a/b/c").mpr (by decide)⟩

end GhFind
